import Mathlib

/-!
Verification development for the AI portfolio-analysis application.

The repository ships the frontend (Next.js components under `frontend/` and
the unnamed page files) together with a README describing the system.  The
quantitative backend that the frontend calls at `http://localhost:8000`
(`/api/analyze`, `/api/backtest`, `/api/backtest/strategies`, ...) is not part
of the checked-in sources, so the optimizer, backtest simulator, strategy
runtime and metrics calculator are modelled here from the specification, while
the watchlist logic and the strategy-catalog UI guard are translated directly
from the frontend sources (`frontend/context/PortfolioContext.js`,
the backtest page component).

Numbers are modelled with exact rationals `ℚ` in place of IEEE floats;
volatility (a square root) is expressed over `ℝ` via `Real.sqrt`.
-/

/-- Error taxonomy of the engine, from the specification's §7. -/
inductive EngineError where
  | validationError
  | dataError
  | optimizationError
  | compileError
  | securityViolation
  | strategyRuntimeError
deriving DecidableEq

/-- Lifts a property of a successful result over the `Except` returned by an
engine operation: an error returns no result, so the property holds trivially. -/
def okSatisfies {α : Type} (P : α → Prop) : Except EngineError α → Prop
  | .ok a => P a
  | .error _ => True

/- ### Portfolio Optimizer (modelled from the spec) -/

/-- Modelled from the spec: request of the backend optimization endpoint
(the `/api/analyze` handler is not in the repository sources): the selected
tickers, their aligned daily return series (`ReturnSeries`, one per ticker)
and the annual risk-free rate. -/
structure OptimizationRequest where
  tickers : List String
  returnsSeries : List (List ℚ)
  risk_free_rate : ℚ

/-- Mean of a list of daily returns. -/
def mean (xs : List ℚ) : ℚ := xs.sum / xs.length

/-- Daily covariance of two aligned return series. -/
def covar (xs ys : List ℚ) : ℚ :=
  (List.zipWith (fun a b => (a - mean xs) * (b - mean ys)) xs ys).sum / xs.length

/-- Annualization factor: 252 trading days. -/
def tradingDays : ℚ := 252

/-- Modelled from the spec: annualized mean return vector (mean daily return × 252). -/
def annualMeans (series : List (List ℚ)) : List ℚ :=
  series.map (fun s => tradingDays * mean s)

/-- Modelled from the spec: annualized covariance matrix (daily covariance × 252). -/
def annualCov (series : List (List ℚ)) : List (List ℚ) :=
  series.map (fun s1 => series.map (fun s2 => tradingDays * covar s1 s2))

/-- Dot product of two weight/return vectors. -/
def dot (xs ys : List ℚ) : ℚ := (List.zipWith (· * ·) xs ys).sum

/-- Portfolio variance `w'Σw`. -/
def portVariance (cov : List (List ℚ)) (w : List ℚ) : ℚ :=
  dot w (cov.map (fun row => dot row w))

/-- Granularity of the long-only weight grid searched by the solver. -/
def gridSteps : Nat := 10

/-- All lists of `n` naturals summing to `g` (the discrete simplex). -/
def compositions : Nat → Nat → List (List Nat)
  | 0, 0 => [[]]
  | 0, _ + 1 => []
  | n + 1, g =>
      (List.range (g + 1)).flatMap
        (fun k => (compositions n (g - k)).map (fun c => k :: c))

/-- Modelled from the spec: the deterministic solver explores long-only weight
vectors on the simplex (`Σw = 1`, `w ≥ 0`) with a fixed granularity. -/
def gridWeights (n : Nat) : List (List ℚ) :=
  (compositions n gridSteps).map (fun c => c.map (fun (k : Nat) => (k : ℚ) / (gridSteps : ℚ)))

/-- A candidate portfolio: its weights, expected return and variance. -/
structure Candidate where
  weights : List ℚ
  ret : ℚ
  variance : ℚ

/-- Modelled from the spec: Sharpe-ordering of candidates, decided with exact
arithmetic via sign-preserving squares (`s₁ ≥ s₂ ↔ e₁|e₁|v₂ ≥ e₂|e₂|v₁` for
positive variances), with the lower-volatility tie-break. -/
def betterSharpe (rf : ℚ) (a b : Candidate) : Bool :=
  let e1 := a.ret - rf
  let e2 := b.ret - rf
  decide (e2 * |e2| * a.variance < e1 * |e1| * b.variance) ||
    (decide (e1 * |e1| * b.variance = e2 * |e2| * a.variance) &&
      decide (a.variance ≤ b.variance))

/-- Best element of a candidate list under a Boolean preference, scanning left
to right from a running best (fixed deterministic iteration order). -/
def argBest (better : Candidate → Candidate → Bool) : Candidate → List Candidate → Candidate
  | best, [] => best
  | best, c :: cs => argBest better (if better c best then c else best) cs

/-- Minimum of a list of rationals (0 for the empty list). -/
def listMin : List ℚ → ℚ
  | [] => 0
  | x :: xs => xs.foldl min x

/-- Maximum of a list of rationals (0 for the empty list). -/
def listMax : List ℚ → ℚ
  | [] => 0
  | x :: xs => xs.foldl max x

/-- Number of frontier target returns (the fixed grid size K). -/
def frontierTargetCount : Nat := 5

/-- Modelled from the spec: fixed grid of K target returns spanning the
asset-level return range. -/
def targetReturns (μ : List ℚ) : List ℚ :=
  (List.range frontierTargetCount).map
    (fun i => listMin μ + (listMax μ - listMin μ) * i / (frontierTargetCount - 1 : Nat))

/-- Feasibility tolerance around each frontier target (half a grid step). -/
def targetTol (μ : List ℚ) : ℚ :=
  (listMax μ - listMin μ) / (2 * ((frontierTargetCount - 1 : Nat) : ℚ))

/-- Candidates for every grid weight vector, with their return and variance. -/
def makeCandidates (μ : List ℚ) (cov : List (List ℚ)) (n : Nat) : List Candidate :=
  (gridWeights n).map (fun w => ⟨w, dot μ w, portVariance cov w⟩)

/-- Modelled from the spec: one frontier point per feasible target — the
minimum-variance candidate whose return approximates the target; infeasible
targets are skipped.  Each point is a `(variance, return)` pair. -/
def frontierPoints (cands : List Candidate) (μ : List ℚ) : List (ℚ × ℚ) :=
  (targetReturns μ).filterMap (fun t =>
    match cands.filter (fun c => decide (|c.ret - t| ≤ targetTol μ)) with
    | [] => none
    | c :: cs =>
        let m := argBest (fun a b => decide (a.variance ≤ b.variance)) c cs
        some (m.variance, m.ret))

/-- Insert a `(variance, return)` point into a list sorted by variance. -/
def insertPoint (p : ℚ × ℚ) : List (ℚ × ℚ) → List (ℚ × ℚ)
  | [] => [p]
  | q :: qs => if p.1 ≤ q.1 then p :: q :: qs else q :: insertPoint p qs

/-- Modelled from the spec: frontier points are sorted ascending by the
resulting volatility (equivalently by variance, since `Real.sqrt` is monotone). -/
def sortByVariance : List (ℚ × ℚ) → List (ℚ × ℚ)
  | [] => []
  | p :: ps => insertPoint p (sortByVariance ps)

/-- Result of a successful optimization: the maximum-Sharpe weights, its
expected return and variance, and the efficient frontier as ordered
`(variance, return)` pairs.  The reported volatility is `Real.sqrt` of the
variance. -/
structure OptimizationResult where
  weights : List ℚ
  expected_return : ℚ
  variance : ℚ
  frontier : List (ℚ × ℚ)

/-- Data-sufficiency check: every series has at least two observations and all
series share one aligned length (inner-joined calendars). -/
def alignedHistory (series : List (List ℚ)) : Bool :=
  series.all (fun s =>
    decide (2 ≤ s.length) && decide (s.length = (series.headD []).length))

/-- Modelled from the spec: the backend optimization operation (not in the
repository sources).  Validation happens before any covariance computation:
fewer than two tickers fails with `ValidationError`, insufficient or
misaligned history with `DataError`; otherwise the annualized moments are
computed and the deterministic solver returns the maximum-Sharpe weights plus
the sorted efficient frontier. -/
def analyze (req : OptimizationRequest) : Except EngineError OptimizationResult :=
  if req.tickers.length < 2 then .error .validationError
  else if req.returnsSeries.length ≠ req.tickers.length then .error .dataError
  else if alignedHistory req.returnsSeries = false then .error .dataError
  else
    let μ := annualMeans req.returnsSeries
    let cov := annualCov req.returnsSeries
    match makeCandidates μ cov req.returnsSeries.length with
    | [] => .error .optimizationError
    | c :: cs =>
        let best := argBest (betterSharpe req.risk_free_rate) c cs
        .ok { weights := best.weights
              expected_return := best.ret
              variance := best.variance
              frontier := sortByVariance (frontierPoints (c :: cs) μ) }

/- ### Simplex lemmas about the optimizer's weight grid -/

/-- Every list produced by `compositions n g` has length `n` and sum `g`. -/
theorem compositions_mem : ∀ {n g : Nat} {l : List Nat},
    l ∈ compositions n g → l.length = n ∧ l.sum = g
  | 0, 0, l, h => by
      simp only [compositions, List.mem_singleton] at h
      subst h; simp
  | 0, _ + 1, _, h => by simp [compositions] at h
  | n + 1, g, l, h => by
      simp only [compositions, List.mem_flatMap, List.mem_map, List.mem_range] at h
      obtain ⟨k, hk, c, hc, rfl⟩ := h
      obtain ⟨h1, h2⟩ := compositions_mem hc
      refine ⟨by simp [h1], ?_⟩
      simp only [List.sum_cons, h2]
      omega

/-- The all-zero composition. -/
theorem replicate_mem_compositions : ∀ n : Nat, List.replicate n 0 ∈ compositions n 0 := by
  intro n
  induction n with
  | zero => simp [compositions]
  | succ m ih =>
      simp only [compositions, List.mem_flatMap, List.mem_map, List.mem_range]
      exact ⟨0, by omega, List.replicate m 0, ih, rfl⟩

/-- `compositions (n+1) g` always holds the composition `g :: 0 … 0`. -/
theorem cons_mem_compositions (n g : Nat) :
    g :: List.replicate n 0 ∈ compositions (n + 1) g := by
  simp only [compositions, List.mem_flatMap, List.mem_map, List.mem_range]
  exact ⟨g, by omega, List.replicate n 0, by simpa using replicate_mem_compositions n, rfl⟩

/-- An element of a list of naturals is at most the list's sum. -/
theorem mem_le_sum_nat : ∀ {l : List Nat} {k : Nat}, k ∈ l → k ≤ l.sum := by
  intro l
  induction l with
  | nil => intro k h; cases h
  | cons a tl ih =>
      intro k h
      rcases List.mem_cons.mp h with h | h
      · subst h; simp [List.sum_cons]
      · have := ih h
        simp only [List.sum_cons]
        omega

/-- Summing the grid normalization over a composition. -/
theorem sum_map_div (c : List Nat) :
    (c.map (fun (k : Nat) => (k : ℚ) / (gridSteps : ℚ))).sum = ((c.sum : ℕ) : ℚ) / (gridSteps : ℚ) := by
  induction c with
  | nil => simp
  | cons a tl ih => simp [ih, add_div]

/-- Every grid weight vector lies on the long-only simplex: entries in `[0,1]`
summing exactly to 1. -/
theorem gridWeights_mem {n : Nat} {w : List ℚ} (hw : w ∈ gridWeights n) :
    w.sum = 1 ∧ ∀ x ∈ w, 0 ≤ x ∧ x ≤ 1 := by
  simp only [gridWeights, List.mem_map] at hw
  obtain ⟨c, hc, rfl⟩ := hw
  obtain ⟨-, hsum⟩ := compositions_mem hc
  constructor
  · rw [sum_map_div, hsum]
    norm_num [gridSteps]
  · intro x hx
    simp only [List.mem_map] at hx
    obtain ⟨k, hk, rfl⟩ := hx
    have hkle : k ≤ gridSteps := hsum ▸ mem_le_sum_nat hk
    have hpos : (0 : ℚ) < (gridSteps : ℚ) := by norm_num [gridSteps]
    refine ⟨div_nonneg (Nat.cast_nonneg k) hpos.le, ?_⟩
    rw [div_le_one hpos]
    exact_mod_cast hkle

/-- `argBest` always selects one of the scanned candidates. -/
theorem argBest_mem (f : Candidate → Candidate → Bool) :
    ∀ (l : List Candidate) (b : Candidate), argBest f b l ∈ b :: l := by
  intro l
  induction l with
  | nil => intro b; simp [argBest]
  | cons c cs ih =>
      intro b
      simp only [argBest]
      rcases List.mem_cons.mp (ih (if f c b then c else b)) with h | h
      · rw [h]
        by_cases hf : f c b <;> simp [hf]
      · exact List.mem_cons_of_mem _ (List.mem_cons_of_mem _ h)

/-- A candidate built by `makeCandidates` carries a grid weight vector. -/
theorem makeCandidates_weights {μ : List ℚ} {cov : List (List ℚ)} {n : Nat}
    {x : Candidate} (hx : x ∈ makeCandidates μ cov n) : x.weights ∈ gridWeights n := by
  simp only [makeCandidates, List.mem_map] at hx
  obtain ⟨w, hw, rfl⟩ := hx
  exact hw

/-- The optimizer's weight invariant, as stated by the spec: weights sum to 1
(hence within the 1e-6 tolerance) and each lies in `[0,1]`. -/
def weightsOnSimplex (res : OptimizationResult) : Prop :=
  res.weights.sum = 1 ∧ |res.weights.sum - 1| ≤ 1 / 1000000 ∧
    ∀ x ∈ res.weights, 0 ≤ x ∧ x ≤ 1

/- ### Sortedness of the efficient frontier -/

/-- The head of an insertion is the new point or the old head. -/
theorem insertPoint_head? (p : ℚ × ℚ) :
    ∀ l : List (ℚ × ℚ), (insertPoint p l).head? = some p ∨ (insertPoint p l).head? = l.head? := by
  intro l
  cases l with
  | nil => left; rfl
  | cons q qs =>
      by_cases h : p.1 ≤ q.1
      · left; simp [insertPoint, h]
      · right; simp [insertPoint, h]

/-- Insertion preserves the non-decreasing-variance chain. -/
theorem insertPoint_chain (p : ℚ × ℚ) :
    ∀ {l : List (ℚ × ℚ)}, List.Chain' (fun a b : ℚ × ℚ => a.1 ≤ b.1) l →
      List.Chain' (fun a b : ℚ × ℚ => a.1 ≤ b.1) (insertPoint p l) := by
  intro l
  induction l with
  | nil => intro _; simp [insertPoint]
  | cons q qs ih =>
      intro hchain
      obtain ⟨hhead, htail⟩ := List.chain'_cons'.mp hchain
      by_cases h : p.1 ≤ q.1
      · simp only [insertPoint, h, if_true]
        refine List.chain'_cons'.mpr ⟨?_, hchain⟩
        intro y hy
        simp only [List.head?_cons, Option.mem_def, Option.some.injEq] at hy
        subst hy
        exact h
      · simp only [insertPoint, h, if_false]
        refine List.chain'_cons'.mpr ⟨?_, ih htail⟩
        intro y hy
        rcases insertPoint_head? p qs with hh | hh
        · rw [hh] at hy
          simp only [Option.mem_def, Option.some.injEq] at hy
          subst hy
          exact le_of_not_le h
        · rw [hh] at hy
          exact hhead y hy

/-- The frontier sort returns a list sorted ascending by variance. -/
theorem sortByVariance_chain (l : List (ℚ × ℚ)) :
    List.Chain' (fun a b : ℚ × ℚ => a.1 ≤ b.1) (sortByVariance l) := by
  induction l with
  | nil => simp [sortByVariance]
  | cons p ps ih => exact insertPoint_chain p ih

/- ### Claim theorems for the Portfolio Optimizer -/

/-- C1: every valid optimization request — at least two tickers with
sufficient aligned return history — succeeds, and the weights of the returned
`OptimizationResult` sum to 1 within 1e-6 (here: exactly) while every
individual weight lies in the closed interval `[0,1]`. -/
theorem analyze_weights_simplex (req : OptimizationRequest)
    (h1 : 2 ≤ req.tickers.length)
    (h2 : req.returnsSeries.length = req.tickers.length)
    (h3 : alignedHistory req.returnsSeries = true) :
    (analyze req).isOk = true ∧ okSatisfies weightsOnSimplex (analyze req) := by
  have hn1 : ¬ req.tickers.length < 2 := by omega
  have hn2 : ¬ req.returnsSeries.length ≠ req.tickers.length := by simp [h2]
  have hn3 : ¬ alignedHistory req.returnsSeries = false := by simp [h3]
  obtain ⟨m, hm⟩ : ∃ m, req.returnsSeries.length = m + 1 :=
    ⟨req.returnsSeries.length - 1, by omega⟩
  cases hc : makeCandidates (annualMeans req.returnsSeries) (annualCov req.returnsSeries)
      req.returnsSeries.length with
  | nil =>
      exfalso
      have hmem : (gridSteps :: List.replicate m 0) ∈ compositions (m + 1) gridSteps :=
        cons_mem_compositions m gridSteps
      have hgw := List.mem_map_of_mem
        (fun c => c.map (fun (k : Nat) => (k : ℚ) / (gridSteps : ℚ))) hmem
      rw [hm] at hc
      have hcand := List.mem_map_of_mem
        (fun w => (⟨w, dot (annualMeans req.returnsSeries) w,
          portVariance (annualCov req.returnsSeries) w⟩ : Candidate)) hgw
      rw [show ((compositions (m + 1) gridSteps).map
          (fun c => c.map (fun (k : Nat) => (k : ℚ) / (gridSteps : ℚ)))).map
          (fun w => (⟨w, dot (annualMeans req.returnsSeries) w,
            portVariance (annualCov req.returnsSeries) w⟩ : Candidate)) =
          makeCandidates (annualMeans req.returnsSeries)
            (annualCov req.returnsSeries) (m + 1) from rfl, hc] at hcand
      exact absurd hcand (List.not_mem_nil _)
  | cons c cs =>
      have hok : analyze req = .ok
          ⟨(argBest (betterSharpe req.risk_free_rate) c cs).weights,
            (argBest (betterSharpe req.risk_free_rate) c cs).ret,
            (argBest (betterSharpe req.risk_free_rate) c cs).variance,
            sortByVariance (frontierPoints (c :: cs) (annualMeans req.returnsSeries))⟩ := by
        simp only [analyze]
        rw [if_neg hn1, if_neg hn2, if_neg hn3, hc]
      refine ⟨by rw [hok]; rfl, ?_⟩
      rw [hok]
      show weightsOnSimplex _
      have hbest := argBest_mem (betterSharpe req.risk_free_rate) cs c
      rw [← hc] at hbest
      obtain ⟨hsum, hbounds⟩ := gridWeights_mem (makeCandidates_weights hbest)
      exact ⟨hsum, by rw [hsum]; norm_num, hbounds⟩

/-- Witness for C1: a concrete two-ticker request with two aligned returns
per ticker. -/
theorem analyze_weights_simplex_witness :
    (analyze ⟨["AAA", "BBB"], [[1, 2], [2, 1]], 0⟩).isOk = true ∧
      okSatisfies weightsOnSimplex (analyze ⟨["AAA", "BBB"], [[1, 2], [2, 1]], 0⟩) :=
  analyze_weights_simplex _ (by decide) (by decide) (by decide)

/-- Sorted-ascending-by-volatility property of a result's frontier: along the
ordered list, the volatility `Real.sqrt variance` never decreases. -/
def frontierSorted (res : OptimizationResult) : Prop :=
  List.Chain' (fun p q : ℚ × ℚ => Real.sqrt ((p.1 : ℚ) : ℝ) ≤ Real.sqrt ((q.1 : ℚ) : ℝ))
    res.frontier

/-- C3: every `OptimizationResult` returned by the optimizer has its
efficient-frontier list sorted ascending by volatility: each consecutive
pair is non-decreasing in volatility. -/
theorem analyze_frontier_sorted (req : OptimizationRequest) :
    okSatisfies frontierSorted (analyze req) := by
  simp only [analyze]
  split_ifs with h1 h2 h3
  · trivial
  · trivial
  · trivial
  · cases hc : makeCandidates (annualMeans req.returnsSeries) (annualCov req.returnsSeries)
        req.returnsSeries.length with
    | nil => trivial
    | cons c cs =>
        show frontierSorted _
        exact List.Chain'.imp
          (fun a b hab => Real.sqrt_le_sqrt (by exact_mod_cast hab))
          (sortByVariance_chain _)

/-- C5: an optimization request with fewer than two tickers fails with
`ValidationError`; in `analyze` this validation precedes the covariance
computation, so no `OptimizationResult` is produced. -/
theorem analyze_single_ticker (req : OptimizationRequest)
    (h : req.tickers.length < 2) :
    analyze req = .error .validationError := by
  simp [analyze, h]

/-- Witness for C5 at a concrete single-ticker request. -/
theorem analyze_single_ticker_witness :
    analyze ⟨["AAPL"], [[1, 2]], 0⟩ = .error .validationError :=
  analyze_single_ticker _ (by decide)

/- ### Strategy Runtime and Backtest Simulator (modelled from the spec) -/

/-- Daily OHLC bar (volume is never consulted by the simulator). -/
structure Bar where
  date : Nat
  high : ℚ
  low : ℚ
  close : ℚ

/-- Per-bar decision of a strategy rule. -/
inductive Decision where
  | hold
  | buy
  | sell
deriving DecidableEq

/-- Output of one strategy invocation: the decision plus optional
stop-loss/take-profit price overrides. -/
structure StrategyOutput where
  decision : Decision
  stop_loss : Option ℚ
  take_profit : Option ℚ

/-- Account state maintained by the simulator: cash, shares held and the
currently armed stop-loss/take-profit thresholds. -/
structure Account where
  cash : ℚ
  shares : Nat
  stop_loss : Option ℚ
  take_profit : Option ℚ

/-- Modelled from the spec: a sandboxed strategy rule sees only the truncated
bar history up to the current bar plus the account state; `Except.error ()`
stands for a non-security runtime exception raised by the rule. -/
def Strategy : Type := List Bar → Account → Except Unit StrategyOutput

/-- A trade appended by the simulator; immutable once appended. -/
structure Trade where
  date : Nat
  type : Decision
  price : ℚ
  shares : Nat
  value : ℚ

/-- One equity-curve point per simulated bar. -/
structure EquityPoint where
  date : Nat
  cash : ℚ
  position_value : ℚ
  equity : ℚ

/-- Full simulator state: account, trade log, equity curve, realized
round-trip P&L list, cost basis of the open position and the per-run
violation counter. -/
structure SimState where
  acct : Account
  trades : List Trade
  equity : List EquityPoint
  round_trips : List ℚ
  entry_cost : ℚ
  violations : Nat

/-- Modelled from the spec: intrabar stop-loss/take-profit check — with an
open position, a breached threshold forces a SELL at the threshold price,
overriding the strategy's decision for this bar. -/
def forcedExitPrice (a : Account) (bar : Bar) : Option ℚ :=
  if a.shares = 0 then none
  else
    match a.stop_loss, a.take_profit with
    | some sl, some tp =>
        if bar.low ≤ sl then some sl else if tp ≤ bar.high then some tp else none
    | some sl, none => if bar.low ≤ sl then some sl else none
    | none, some tp => if tp ≤ bar.high then some tp else none
    | none, none => none

/-- Modelled from the spec: SELL liquidates the entire held position at the
given price net of the proportional commission, credits cash, zeroes the
shares, appends the trade and records the realized round-trip P&L; with no
position it is a no-op (no short selling beyond zero). -/
def applySell (comm : ℚ) (date : Nat) (price : ℚ) (st : SimState) : SimState :=
  if st.acct.shares = 0 then st
  else
    let proceeds := price * st.acct.shares * (1 - comm)
    { st with
      acct := { cash := st.acct.cash + proceeds, shares := 0
                stop_loss := none, take_profit := none }
      trades := st.trades ++ [⟨date, .sell, price, st.acct.shares, price * st.acct.shares⟩]
      round_trips := st.round_trips ++ [proceeds - st.entry_cost]
      entry_cost := 0 }

/-- Modelled from the spec: BUY purchases
`floor(cash / (price × (1 + commission)))` shares; zero purchasable shares
degrades the decision to HOLD (a no-op, not an error). -/
def applyBuy (comm : ℚ) (date : Nat) (price : ℚ) (sl tp : Option ℚ) (st : SimState) : SimState :=
  let n : Nat := (⌊st.acct.cash / (price * (1 + comm))⌋).toNat
  if n = 0 then st
  else
    let cost := price * n * (1 + comm)
    { st with
      acct := { cash := st.acct.cash - cost, shares := st.acct.shares + n
                stop_loss := sl, take_profit := tp }
      trades := st.trades ++ [⟨date, .buy, price, n, price * n⟩]
      entry_cost := st.entry_cost + cost }

/-- Modelled from the spec: the non-equity part of one simulation step —
forced intrabar exit first, otherwise one strategy invocation whose runtime
exception is caught, counted and degraded to HOLD. -/
def stepCore (strat : Strategy) (comm : ℚ) (hist : List Bar) (bar : Bar)
    (st : SimState) : SimState :=
  match forcedExitPrice st.acct bar with
  | some p => applySell comm bar.date p st
  | none =>
      match strat hist st.acct with
      | .error _ => { st with violations := st.violations + 1 }
      | .ok out =>
          match out.decision with
          | .hold => st
          | .buy => applyBuy comm bar.date bar.close out.stop_loss out.take_profit st
          | .sell => applySell comm bar.date bar.close st

/-- Modelled from the spec: every simulated bar appends one `EquityPoint`,
marking any open position at the bar's closing price, with
`equity = cash + position_value`. -/
def markEquity (bar : Bar) (st : SimState) : SimState :=
  { st with
    equity := st.equity ++
      [⟨bar.date, st.acct.cash, bar.close * st.acct.shares,
        st.acct.cash + bar.close * st.acct.shares⟩] }

/-- One full simulation step for one bar. -/
def stepBar (strat : Strategy) (comm : ℚ) (hist : List Bar) (bar : Bar)
    (st : SimState) : SimState :=
  markEquity bar (stepCore strat comm hist bar st)

/-- Modelled from the spec: single chronological forward pass over the bars;
the strategy only ever receives the truncated history up to and including the
current bar. -/
def simulate (strat : Strategy) (comm : ℚ) : List Bar → List Bar → SimState → SimState
  | _, [], st => st
  | hist, bar :: rest, st =>
      simulate strat comm (hist ++ [bar]) rest (stepBar strat comm (hist ++ [bar]) bar st)

/-- Profit factor: a genuine `+∞` sentinel or a finite ratio. -/
inductive ProfitFactor where
  | infinite
  | finite (value : ℚ)
deriving DecidableEq

/-- Gross gains: sum of the positive round-trip P&L values. -/
def sumGains (pnls : List ℚ) : ℚ := (pnls.filter (fun x => decide (0 < x))).sum

/-- Gross losses: sum of the negative round-trip P&L values. -/
def sumLosses (pnls : List ℚ) : ℚ := (pnls.filter (fun x => decide (x < 0))).sum

/-- Modelled from the spec: profit factor of the Metrics Calculator — the
ratio of gross gains to the absolute gross losses, with the explicit `+∞`
sentinel (not an exception) when there are no losing round trips. -/
def profitFactor (pnls : List ℚ) : ProfitFactor :=
  if pnls.filter (fun x => decide (x < 0)) = [] then .infinite
  else .finite (sumGains pnls / |sumLosses pnls|)

/-- Modelled from the spec: the slice of the summary metrics the claims are
about (the further statistics — Sharpe, drawdown, win rate — are not needed
by any claim and are omitted from the model). -/
structure Metrics where
  initial_capital : ℚ
  final_equity : ℚ
  total_return : ℚ
  num_trades : Nat
  profit_factor : ProfitFactor

/-- Metrics derived from a finished simulation state. -/
def computeMetrics (capital : ℚ) (st : SimState) : Metrics :=
  let fe := (st.equity.getLast?).elim capital (fun p => p.equity)
  { initial_capital := capital
    final_equity := fe
    total_return := (fe - capital) / capital
    num_trades := st.trades.length
    profit_factor := profitFactor st.round_trips }

/-- Result of a completed backtest run, scoped to a single run. -/
structure BacktestResult where
  metrics : Metrics
  equity_curve : List EquityPoint
  trades : List Trade
  round_trips : List ℚ

/-- Fresh simulator state: full cash, no position, empty logs. -/
def initState (capital : ℚ) : SimState :=
  { acct := { cash := capital, shares := 0, stop_loss := none, take_profit := none }
    trades := [], equity := [], round_trips := [], entry_cost := 0, violations := 0 }

/-- Modelled from the spec: the backend backtest operation (not in the
repository sources).  Parameters are validated first
(`initial_capital > 0`, `0 ≤ commission < 1`); after the forward pass the run
fails with `StrategyRuntimeError` when caught per-bar exceptions exceed the
fixed >50% violation-rate threshold, returning no `BacktestResult`. -/
def runBacktest (strat : Strategy) (bars : List Bar) (capital comm : ℚ) :
    Except EngineError BacktestResult :=
  if capital ≤ 0 then .error .validationError
  else if comm < 0 ∨ 1 ≤ comm then .error .validationError
  else
    let st := simulate strat comm [] bars (initState capital)
    if bars.length < 2 * st.violations then .error .strategyRuntimeError
    else .ok { metrics := computeMetrics capital st
               equity_curve := st.equity
               trades := st.trades
               round_trips := st.round_trips }

/- ### Equity accounting invariant (C2) -/

/-- Selling never touches the already-recorded equity curve. -/
theorem applySell_equity (comm : ℚ) (d : Nat) (p : ℚ) (st : SimState) :
    (applySell comm d p st).equity = st.equity := by
  unfold applySell
  split <;> rfl

/-- Buying never touches the already-recorded equity curve. -/
theorem applyBuy_equity (comm : ℚ) (d : Nat) (p : ℚ) (sl tp : Option ℚ) (st : SimState) :
    (applyBuy comm d p sl tp st).equity = st.equity := by
  unfold applyBuy
  dsimp only
  split <;> rfl

/-- The decision part of a step leaves the equity curve unchanged; only
`markEquity` appends to it. -/
theorem stepCore_equity (strat : Strategy) (comm : ℚ) (hist : List Bar) (bar : Bar)
    (st : SimState) : (stepCore strat comm hist bar st).equity = st.equity := by
  unfold stepCore
  split
  · exact applySell_equity comm bar.date _ st
  · split
    · rfl
    · split
      · rfl
      · exact applyBuy_equity comm bar.date bar.close _ _ st
      · exact applySell_equity comm bar.date bar.close st

/-- The recorded-equity invariant: every point satisfies
`equity = cash + position_value`. -/
def equityConsistent (l : List EquityPoint) : Prop :=
  ∀ p ∈ l, p.equity = p.cash + p.position_value

/-- Appending a freshly marked point preserves the invariant. -/
theorem equityConsistent_append (l : List EquityPoint) (pt : EquityPoint)
    (hl : equityConsistent l) (hpt : pt.equity = pt.cash + pt.position_value) :
    equityConsistent (l ++ [pt]) := by
  intro p hp
  rcases List.mem_append.mp hp with h | h
  · exact hl p h
  · simp only [List.mem_singleton] at h
    subst h
    exact hpt

/-- A full step preserves the recorded-equity invariant. -/
theorem stepBar_equityConsistent (strat : Strategy) (comm : ℚ) (hist : List Bar)
    (bar : Bar) (st : SimState) (h : equityConsistent st.equity) :
    equityConsistent (stepBar strat comm hist bar st).equity := by
  unfold stepBar markEquity
  dsimp only
  rw [stepCore_equity]
  exact equityConsistent_append _ _ h rfl

/-- The forward pass preserves the recorded-equity invariant. -/
theorem simulate_equityConsistent (strat : Strategy) (comm : ℚ) :
    ∀ (bars hist : List Bar) (st : SimState), equityConsistent st.equity →
      equityConsistent (simulate strat comm hist bars st).equity := by
  intro bars
  induction bars with
  | nil => intro hist st h; exact h
  | cons bar rest ih =>
      intro hist st h
      exact ih (hist ++ [bar]) _ (stepBar_equityConsistent _ _ _ _ _ h)

/-- C2: for every completed backtest run, every `EquityPoint` recorded in the
returned equity curve satisfies `equity = cash + position_value`. -/
theorem backtest_equity_consistent (strat : Strategy) (bars : List Bar)
    (capital comm : ℚ) :
    okSatisfies (fun res => equityConsistent res.equity_curve)
      (runBacktest strat bars capital comm) := by
  simp only [runBacktest]
  split_ifs with h1 h2 h3
  · trivial
  · trivial
  · trivial
  · show equityConsistent _
    exact simulate_equityConsistent strat comm bars [] (initState capital)
      (fun p hp => absurd hp (List.not_mem_nil p))

/- ### The always-HOLD strategy (C6) -/

/-- A strategy whose decision is HOLD on every bar. -/
def alwaysHold : Strategy := fun _ _ => .ok ⟨.hold, none, none⟩

/-- Every recorded point of a constant curve carries the given equity. -/
def equityConstant (c : ℚ) (l : List EquityPoint) : Prop := ∀ p ∈ l, p.equity = c

/-- Under the always-HOLD strategy the account never changes, no trade is
appended and every appended equity point equals the starting cash. -/
theorem simulate_hold (capital comm : ℚ) :
    ∀ (bars hist : List Bar) (tr : List Trade) (eqc : List EquityPoint)
      (rt : List ℚ) (ec : ℚ) (v : Nat),
      (simulate alwaysHold comm hist bars
        ⟨⟨capital, 0, none, none⟩, tr, eqc, rt, ec, v⟩).trades = tr ∧
      (simulate alwaysHold comm hist bars
        ⟨⟨capital, 0, none, none⟩, tr, eqc, rt, ec, v⟩).violations = v ∧
      ∀ p ∈ (simulate alwaysHold comm hist bars
        ⟨⟨capital, 0, none, none⟩, tr, eqc, rt, ec, v⟩).equity,
        p ∈ eqc ∨ p.equity = capital := by
  intro bars
  induction bars with
  | nil =>
      intro hist tr eqc rt ec v
      exact ⟨rfl, rfl, fun p hp => Or.inl hp⟩
  | cons bar rest ih =>
      intro hist tr eqc rt ec v
      have hstep : stepBar alwaysHold comm (hist ++ [bar]) bar
          ⟨⟨capital, 0, none, none⟩, tr, eqc, rt, ec, v⟩ =
          ⟨⟨capital, 0, none, none⟩, tr,
            eqc ++ [⟨bar.date, capital, bar.close * ((0 : Nat) : ℚ),
              capital + bar.close * ((0 : Nat) : ℚ)⟩], rt, ec, v⟩ := rfl
      rw [simulate, hstep]
      obtain ⟨h1, h2, h3⟩ := ih (hist ++ [bar]) tr
        (eqc ++ [⟨bar.date, capital, bar.close * ((0 : Nat) : ℚ),
          capital + bar.close * ((0 : Nat) : ℚ)⟩]) rt ec v
      refine ⟨h1, h2, ?_⟩
      intro p hp
      rcases h3 p hp with h | h
      · rcases List.mem_append.mp h with h' | h'
        · exact Or.inl h'
        · right
          simp only [List.mem_singleton] at h'
          subst h'
          simp
      · exact Or.inr h

/-- C6: for every price series and every valid initial capital, backtesting
the always-HOLD strategy succeeds with an empty trade list and an equity
curve constant at the initial capital, regardless of price movement. -/
theorem alwaysHold_backtest (bars : List Bar) (capital comm : ℚ)
    (h1 : 0 < capital) (h2 : 0 ≤ comm) (h3 : comm < 1) :
    (runBacktest alwaysHold bars capital comm).isOk = true ∧
      okSatisfies (fun res => res.trades = [] ∧ equityConstant capital res.equity_curve)
        (runBacktest alwaysHold bars capital comm) := by
  have hn1 : ¬ capital ≤ 0 := not_le.mpr h1
  have hn2 : ¬ (comm < 0 ∨ 1 ≤ comm) := by
    rintro (h | h)
    · exact absurd h (not_lt.mpr h2)
    · exact absurd h (not_le.mpr h3)
  have hinit : initState capital =
      ⟨⟨capital, 0, none, none⟩, [], [], [], 0, 0⟩ := rfl
  obtain ⟨htr, hv, heq⟩ := simulate_hold capital comm bars [] [] [] [] 0 0
  have hnv : ¬ bars.length <
      2 * (simulate alwaysHold comm [] bars (initState capital)).violations := by
    rw [hinit, hv]
    omega
  have hok : runBacktest alwaysHold bars capital comm = .ok
      { metrics := computeMetrics capital (simulate alwaysHold comm [] bars (initState capital))
        equity_curve := (simulate alwaysHold comm [] bars (initState capital)).equity
        trades := (simulate alwaysHold comm [] bars (initState capital)).trades
        round_trips := (simulate alwaysHold comm [] bars (initState capital)).round_trips } := by
    simp only [runBacktest]
    rw [if_neg hn1, if_neg hn2, if_neg hnv]
  rw [hok]
  refine ⟨rfl, ?_, ?_⟩
  · show (simulate alwaysHold comm [] bars (initState capital)).trades = []
    rw [hinit]
    exact htr
  · show equityConstant capital (simulate alwaysHold comm [] bars (initState capital)).equity
    intro p hp
    rw [hinit] at hp
    rcases heq p hp with h | h
    · exact absurd h (List.not_mem_nil p)
    · exact h

/-- Witness for C6: a concrete two-bar run of the always-HOLD strategy. -/
theorem alwaysHold_backtest_witness :
    (runBacktest alwaysHold [⟨0, 1, 1, 1⟩, ⟨1, 2, 2, 2⟩] 1 0).isOk = true ∧
      okSatisfies (fun res => res.trades = [] ∧ equityConstant 1 res.equity_curve)
        (runBacktest alwaysHold [⟨0, 1, 1, 1⟩, ⟨1, 2, 2, 2⟩] 1 0) :=
  alwaysHold_backtest [⟨0, 1, 1, 1⟩, ⟨1, 2, 2, 2⟩] 1 0 one_pos (le_refl 0) one_pos

/- ### Violation counting and StrategyRuntimeError (C4) -/

/-- A strategy rule that raises a (non-security) runtime exception on every bar. -/
def alwaysThrow : Strategy := fun _ _ => .error ()

/-- With no open position, a step under a throwing rule only increments the
per-run violation counter (the bar's decision defaults to HOLD). -/
theorem stepCore_throw (comm : ℚ) (hist : List Bar) (bar : Bar) (st : SimState)
    (h : st.acct.shares = 0) :
    stepCore alwaysThrow comm hist bar st = { st with violations := st.violations + 1 } := by
  unfold stepCore
  rw [show forcedExitPrice st.acct bar = none by simp [forcedExitPrice, h]]
  rfl

/-- Under the always-throwing rule the violation counter ends at the number
of simulated bars (the account never opens a position). -/
theorem simulate_throw (comm : ℚ) :
    ∀ (bars hist : List Bar) (st : SimState), st.acct.shares = 0 →
      (simulate alwaysThrow comm hist bars st).violations = st.violations + bars.length := by
  intro bars
  induction bars with
  | nil =>
      intro hist st h
      simp [simulate]
  | cons bar rest ih =>
      intro hist st h
      rw [simulate]
      have hstep : stepBar alwaysThrow comm (hist ++ [bar]) bar st =
          markEquity bar { st with violations := st.violations + 1 } := by
        unfold stepBar
        rw [stepCore_throw comm (hist ++ [bar]) bar st h]
      rw [hstep]
      have hrec := ih (hist ++ [bar])
        (markEquity bar { st with violations := st.violations + 1 }) h
      rw [hrec]
      show (st.violations + 1) + rest.length = st.violations + (rest.length + 1)
      omega

/-- C4: whenever caught per-bar runtime exceptions exceed the fixed >50%
violation-rate threshold, the run fails with `StrategyRuntimeError` and no
`BacktestResult` is returned — in particular for a rule that throws on every
bar of a nonempty series; below the threshold each throwing bar is caught and
its decision defaults to HOLD (the step equals the HOLD step except for the
violation counter). -/
theorem strategyRuntimeError_threshold :
    (∀ (strat : Strategy) (bars : List Bar) (capital comm : ℚ),
      ¬ capital ≤ 0 → ¬ (comm < 0 ∨ 1 ≤ comm) →
      bars.length < 2 * (simulate strat comm [] bars (initState capital)).violations →
      runBacktest strat bars capital comm = .error .strategyRuntimeError) ∧
    (∀ (bars : List Bar) (capital comm : ℚ),
      ¬ capital ≤ 0 → ¬ (comm < 0 ∨ 1 ≤ comm) → bars ≠ [] →
      runBacktest alwaysThrow bars capital comm = .error .strategyRuntimeError) ∧
    (∀ (strat : Strategy) (comm : ℚ) (hist : List Bar) (bar : Bar) (st : SimState),
      forcedExitPrice st.acct bar = none →
      strat hist st.acct = .error () →
      stepBar strat comm hist bar st =
        stepBar alwaysHold comm hist bar { st with violations := st.violations + 1 }) := by
  have hgen : ∀ (strat : Strategy) (bars : List Bar) (capital comm : ℚ),
      ¬ capital ≤ 0 → ¬ (comm < 0 ∨ 1 ≤ comm) →
      bars.length < 2 * (simulate strat comm [] bars (initState capital)).violations →
      runBacktest strat bars capital comm = .error .strategyRuntimeError := by
    intro strat bars capital comm h1 h2 h3
    simp only [runBacktest]
    rw [if_neg h1, if_neg h2, if_pos h3]
  refine ⟨hgen, ?_, ?_⟩
  · intro bars capital comm h1 h2 hne
    apply hgen alwaysThrow bars capital comm h1 h2
    rw [simulate_throw comm bars [] (initState capital) rfl]
    have : 0 < bars.length := List.length_pos.mpr hne
    show bars.length < 2 * (0 + bars.length)
    omega
  · intro strat comm hist bar st hfe herr
    unfold stepBar stepCore
    dsimp only
    rw [hfe, herr]
    rfl

/-- Witness for C4: the always-throwing rule on a concrete one-bar series
fails the run, and a concrete throwing step equals the HOLD step plus one
recorded violation. -/
theorem strategyRuntimeError_threshold_witness :
    runBacktest alwaysThrow [⟨0, 1, 1, 1⟩] 1 0 = .error .strategyRuntimeError ∧
      stepBar alwaysThrow 0 [] ⟨0, 1, 1, 1⟩ (initState 1) =
        stepBar alwaysHold 0 [] ⟨0, 1, 1, 1⟩
          { initState 1 with violations := (initState 1).violations + 1 } :=
  ⟨strategyRuntimeError_threshold.2.1 [⟨0, 1, 1, 1⟩] 1 0 one_pos.not_le
      (fun h => h.elim (lt_irrefl 0) one_pos.not_le) (List.cons_ne_nil _ _),
    strategyRuntimeError_threshold.2.2 alwaysThrow 0 [] ⟨0, 1, 1, 1⟩ (initState 1) rfl rfl⟩

/- ### Profit factor (C7) -/

/-- No losing round trip: every recorded round-trip P&L is non-negative. -/
def noLosingTrip (pnls : List ℚ) : Prop := ∀ x ∈ pnls, 0 ≤ x

/-- At least one winning round trip. -/
def someWinningTrip (pnls : List ℚ) : Prop := ∃ x ∈ pnls, 0 < x

/-- At least one losing round trip. -/
def someLosingTrip (pnls : List ℚ) : Prop := ∃ x ∈ pnls, x < 0

/-- Filtering losses is empty exactly when no round trip lost. -/
theorem filter_losses_eq_nil (pnls : List ℚ) :
    pnls.filter (fun x => decide (x < 0)) = [] ↔ noLosingTrip pnls := by
  rw [List.filter_eq_nil_iff]
  constructor
  · intro h x hx
    have := h x hx
    simpa using this
  · intro h x hx
    simpa using not_lt.mpr (h x hx)

/-- C7 counterexample: a completed backtest can have zero round trips (for
example the always-HOLD run of C6), which has no losing and no winning round
trip; the claim's "otherwise" branch then demands the finite ratio
`sumGains / |sumLosses|`, but the Metrics Calculator returns the `+∞`
sentinel, as the spec's own sentence ("if there are no losing round trips,
profit_factor = +∞") requires. -/
theorem profitFactor_no_trips_counterexample :
    profitFactor [] = .infinite ∧
      profitFactor [] ≠ .finite (sumGains [] / |sumLosses []|) := by
  refine ⟨rfl, ?_⟩
  intro h
  rw [show profitFactor [] = .infinite from rfl] at h
  exact ProfitFactor.noConfusion h

/-- C7, amended: with no losing round trip and at least one winning one the
profit factor is the explicit `+∞` sentinel (not an exception); with at least
one losing round trip it is the finite ratio of gross gains to the absolute
gross losses; and every completed backtest's reported `profit_factor` is the
Metrics Calculator's `profitFactor` of its recorded round trips. -/
theorem profitFactor_spec :
    (∀ pnls : List ℚ, noLosingTrip pnls → someWinningTrip pnls →
      profitFactor pnls = .infinite) ∧
    (∀ pnls : List ℚ, someLosingTrip pnls →
      profitFactor pnls = .finite (sumGains pnls / |sumLosses pnls|)) ∧
    (∀ (strat : Strategy) (bars : List Bar) (capital comm : ℚ),
      okSatisfies (fun res => res.metrics.profit_factor = profitFactor res.round_trips)
        (runBacktest strat bars capital comm)) := by
  refine ⟨?_, ?_, ?_⟩
  · intro pnls hno _
    unfold profitFactor
    rw [if_pos ((filter_losses_eq_nil pnls).mpr hno)]
  · intro pnls hsome
    unfold profitFactor
    rw [if_neg]
    intro hnil
    obtain ⟨x, hx, hneg⟩ := hsome
    exact absurd hneg (not_lt.mpr ((filter_losses_eq_nil pnls).mp hnil x hx))
  · intro strat bars capital comm
    simp only [runBacktest]
    split_ifs with h1 h2 h3
    · trivial
    · trivial
    · trivial
    · rfl

/-- Witness for C7's amended statement: a single winning round trip yields the
sentinel; a single losing round trip yields the finite ratio. -/
theorem profitFactor_spec_witness :
    profitFactor [1] = .infinite ∧
      profitFactor [-1] = .finite (sumGains [-1] / |sumLosses [-1]|) :=
  ⟨profitFactor_spec.1 [1] (by simp [noLosingTrip]) (by simp [someWinningTrip]),
    profitFactor_spec.2.1 [-1] (by simp [someLosingTrip])⟩

/- ### Strategy catalog (C8) -/

/-- A strategy definition of the catalog: identifier, human name, rule code,
description and the user-saved flag. -/
structure StrategyDefinition where
  key : String
  name : String
  code : String
  description : String
  is_custom : Bool
deriving DecidableEq

/-- Modelled from the spec: the strategy-catalog delete endpoint
(`DELETE /api/backtest/strategies/:key`, not in the repository sources):
deleting a user-saved definition by identifier removes it; built-in
definitions are read-only and cannot be deleted, so deleting anything that is
not a custom definition fails. -/
def deleteStrategy (k : String) (cat : List StrategyDefinition) :
    Except EngineError (List StrategyDefinition) :=
  match cat.find? (fun d => d.key == k) with
  | none => .error .validationError
  | some d =>
      if d.is_custom then .ok (cat.filter (fun e => !(e.key == k)))
      else .error .validationError

/-- From the backtest page component: the delete button is rendered only when
the selected template's `is_custom` flag is true
(`templates[selectedTemplate]?.is_custom && <button …>`), so a delete can only
be issued for a custom definition. -/
def deleteButtonVisible (templates : List StrategyDefinition) (selected : String) : Bool :=
  match templates.find? (fun d => d.key == selected) with
  | some t => t.is_custom
  | none => false

/-- C8: built-in (non-custom) strategy definitions are never deleted: a
successful delete targets a custom definition, every built-in definition
present before the operation is still present after it (given distinct
identifiers), and the frontend only offers deletion for a custom definition. -/
theorem builtin_strategies_never_deleted :
    (∀ (k : String) (cat cat' : List StrategyDefinition),
      (cat.map StrategyDefinition.key).Nodup →
      deleteStrategy k cat = .ok cat' →
      ∀ d ∈ cat, d.is_custom = false → d ∈ cat') ∧
    (∀ (k : String) (cat cat' : List StrategyDefinition),
      deleteStrategy k cat = .ok cat' →
      ∃ d ∈ cat, d.key = k ∧ d.is_custom = true) ∧
    (∀ (templates : List StrategyDefinition) (selected : String),
      deleteButtonVisible templates selected = true →
      ∃ d ∈ templates, d.key = selected ∧ d.is_custom = true) := by
  refine ⟨?_, ?_, ?_⟩
  · intro k cat cat' hnodup hok d hd hbuiltin
    unfold deleteStrategy at hok
    cases hfind : cat.find? (fun d => d.key == k) with
    | none => rw [hfind] at hok; exact absurd hok (by simp)
    | some f =>
        rw [hfind] at hok
        by_cases hcust : f.is_custom
        · simp only [hcust, if_true, Except.ok.injEq] at hok
          subst hok
          rw [List.mem_filter]
          refine ⟨hd, ?_⟩
          simp only [Bool.not_eq_eq_eq_not, Bool.not_true, beq_eq_false_iff_ne, ne_eq]
          intro hdk
          have hfmem : f ∈ cat := List.mem_of_find?_eq_some hfind
          have hfk : f.key = k := by
            have := List.find?_some hfind
            simpa using this
          have : d = f := List.inj_on_of_nodup_map hnodup hd hfmem (by rw [hdk, hfk])
          rw [this] at hbuiltin
          rw [hbuiltin] at hcust
          exact Bool.noConfusion hcust
        · simp [hcust] at hok
  · intro k cat cat' hok
    unfold deleteStrategy at hok
    cases hfind : cat.find? (fun d => d.key == k) with
    | none => rw [hfind] at hok; exact absurd hok (by simp)
    | some f =>
        rw [hfind] at hok
        by_cases hcust : f.is_custom
        · refine ⟨f, List.mem_of_find?_eq_some hfind, ?_, hcust⟩
          have := List.find?_some hfind
          simpa using this
        · simp [hcust] at hok
  · intro templates selected hvis
    unfold deleteButtonVisible at hvis
    cases hfind : templates.find? (fun d => d.key == selected) with
    | none => rw [hfind] at hvis; exact absurd hvis (by simp)
    | some f =>
        rw [hfind] at hvis
        refine ⟨f, List.mem_of_find?_eq_some hfind, ?_, hvis⟩
        have := List.find?_some hfind
        simpa using this

/-- Witness for C8 on a concrete catalog of one built-in and one custom
definition: deleting the custom one keeps the built-in, a successful delete
names a custom definition, and the delete button is shown for the custom
selection. -/
theorem builtin_strategies_never_deleted_witness :
    (⟨"moving_average_crossover", "MA Cross", "c0", "d0", false⟩ : StrategyDefinition) ∈
        [(⟨"moving_average_crossover", "MA Cross", "c0", "d0", false⟩ : StrategyDefinition)] ∧
      (∃ d ∈ [(⟨"moving_average_crossover", "MA Cross", "c0", "d0", false⟩ : StrategyDefinition),
          ⟨"custom_1", "My Strategy", "c1", "d1", true⟩],
        d.key = "custom_1" ∧ d.is_custom = true) ∧
      ∃ d ∈ [(⟨"moving_average_crossover", "MA Cross", "c0", "d0", false⟩ : StrategyDefinition),
          ⟨"custom_1", "My Strategy", "c1", "d1", true⟩],
        d.key = "custom_1" ∧ d.is_custom = true :=
  ⟨builtin_strategies_never_deleted.1 "custom_1"
      [⟨"moving_average_crossover", "MA Cross", "c0", "d0", false⟩,
        ⟨"custom_1", "My Strategy", "c1", "d1", true⟩]
      [⟨"moving_average_crossover", "MA Cross", "c0", "d0", false⟩]
      (by decide) rfl
      ⟨"moving_average_crossover", "MA Cross", "c0", "d0", false⟩ (by decide) (by decide),
    builtin_strategies_never_deleted.2.1 "custom_1"
      [⟨"moving_average_crossover", "MA Cross", "c0", "d0", false⟩,
        ⟨"custom_1", "My Strategy", "c1", "d1", true⟩]
      [⟨"moving_average_crossover", "MA Cross", "c0", "d0", false⟩] rfl,
    builtin_strategies_never_deleted.2.2
      [⟨"moving_average_crossover", "MA Cross", "c0", "d0", false⟩,
        ⟨"custom_1", "My Strategy", "c1", "d1", true⟩] "custom_1" (by decide)⟩

/- ### Watchlist (from frontend/context/PortfolioContext.js) -/

/-- From `PortfolioContext.js`: `addToWatchlist` appends the ticker at the end
only when it is not already present
(`if (!watchlist.includes(ticker)) setWatchlist([...watchlist, ticker])`). -/
def addToWatchlist (watchlist : List String) (ticker : String) : List String :=
  if watchlist.contains ticker then watchlist else watchlist ++ [ticker]

/-- From `PortfolioContext.js`: `removeFromWatchlist` keeps every entry other
than the ticker (`watchlist.filter(t => t !== ticker)`). -/
def removeFromWatchlist (watchlist : List String) (ticker : String) : List String :=
  watchlist.filter (fun t => !(t == ticker))

/-- From `PortfolioContext.js`: `isInWatchlist` is membership
(`watchlist.includes(ticker)`). -/
def isInWatchlist (watchlist : List String) (ticker : String) : Bool :=
  watchlist.contains ticker

/-- C9: the watchlist never acquires duplicate tickers — both operations
preserve pairwise distinctness, and adding an already-present ticker leaves
the watchlist unchanged. -/
theorem watchlist_no_duplicates :
    (∀ (w : List String) (t : String), w.Nodup → (addToWatchlist w t).Nodup) ∧
    (∀ (w : List String) (t : String), w.Nodup → (removeFromWatchlist w t).Nodup) ∧
    (∀ (w : List String) (t : String), w.contains t = true → addToWatchlist w t = w) := by
  refine ⟨?_, ?_, ?_⟩
  · intro w t hw
    unfold addToWatchlist
    by_cases h : w.contains t = true
    · rw [if_pos h]; exact hw
    · rw [if_neg h]
      have ht : t ∉ w := by simpa using h
      rw [List.nodup_append]
      refine ⟨hw, List.nodup_singleton t, ?_⟩
      intro a ha ha2
      simp only [List.mem_singleton] at ha2
      subst ha2
      exact ht ha
  · intro w t hw
    exact hw.filter _
  · intro w t h
    unfold addToWatchlist
    rw [if_pos h]

/-- Witness for C9 on concrete one-element watchlists. -/
theorem watchlist_no_duplicates_witness :
    (addToWatchlist ["AAPL"] "MSFT").Nodup ∧
      (removeFromWatchlist ["AAPL"] "AAPL").Nodup ∧
      addToWatchlist ["AAPL"] "AAPL" = ["AAPL"] :=
  ⟨watchlist_no_duplicates.1 ["AAPL"] "MSFT" (by decide),
    watchlist_no_duplicates.2.1 ["AAPL"] "AAPL" (by decide),
    watchlist_no_duplicates.2.2 ["AAPL"] "AAPL" (by decide)⟩

/-- C10: for a watchlist not containing `t`, adding `t` and then removing `t`
returns the original watchlist, and `isInWatchlist t` is false on the result. -/
theorem watchlist_add_remove_roundtrip (w : List String) (t : String)
    (h : w.contains t = false) :
    removeFromWatchlist (addToWatchlist w t) t = w ∧
      isInWatchlist (removeFromWatchlist (addToWatchlist w t) t) t = false := by
  have ht : t ∉ w := by simpa using h
  have hadd : addToWatchlist w t = w ++ [t] := by
    unfold addToWatchlist
    rw [if_neg]
    simpa using ht
  have hrem : removeFromWatchlist (w ++ [t]) t = w := by
    unfold removeFromWatchlist
    rw [List.filter_append]
    have h1 : List.filter (fun x => !(x == t)) w = w := by
      rw [List.filter_eq_self]
      intro a ha
      simp only [Bool.not_eq_true', beq_eq_false_iff_ne, ne_eq]
      intro hat
      subst hat
      exact ht ha
    have h2 : List.filter (fun x => !(x == t)) [t] = [] := by simp
    rw [h1, h2, List.append_nil]
  constructor
  · rw [hadd, hrem]
  · rw [hadd, hrem]
    exact h

/-- Witness for C10 on a concrete watchlist. -/
theorem watchlist_add_remove_roundtrip_witness :
    removeFromWatchlist (addToWatchlist ["AAPL"] "MSFT") "MSFT" = ["AAPL"] ∧
      isInWatchlist (removeFromWatchlist (addToWatchlist ["AAPL"] "MSFT") "MSFT") "MSFT"
        = false :=
  watchlist_add_remove_roundtrip ["AAPL"] "MSFT" (by decide)
